import Mathlib

/-!
Verification development for the celo BLS signature engine interface
(src/bls/bls.h).  The repository ships only the C interface; the
operations' semantics are modelled from the specification: an idealized
pairing-based aggregate signature scheme whose two groups are modelled by
the additive group of integers (a commutative group, as the spec
requires), with the generator taken to be 1, scalar action as integer
multiplication, and an injective idealized hash-to-curve.  The external
curve-arithmetic collaborator is excluded by the spec, so point validity
is abstracted where it matters (try-and-increment).
-/

/-- Byte strings are modelled as lists of naturals. -/
abbrev Bytes := List Nat

/-- Modelled from the spec: the internal error taxonomy of section 7;
the spec names exactly these four cases and explicitly excludes any
VerificationFailed case. -/
inductive BlsError where
  | InputMalformed
  | CurvePointInvalid
  | AggregationEmptyInput
  | HashToCurveExhausted
deriving DecidableEq, Repr

deriving instance DecidableEq for Except

/-- Injective encoding of a byte string into a natural number, used to
build the idealized injective hash. -/
def encodeList : List Nat → Nat
  | [] => 0
  | a :: t => Nat.pair a (encodeList t) + 1

/-- Modelled from the spec: the domain-separation tag distinguishing the
composite flag, the CIP22 flag and the proof-of-possession domain
(section 4.1: the tag differs for PoP vs ordinary hashing). -/
def domain_tag (should_use_composite should_use_cip22 use_pop : Bool) : Nat :=
  (cond should_use_composite 1 0) + 2 * (cond should_use_cip22 1 0) + 4 * (cond use_pop 1 0)

/-- Modelled from the spec: the idealized deterministic hash-to-curve of
the signature scheme (sections 4.1-4.2), mapping a domain tag and the
(message, extra-data) pair injectively to a nonzero group element of the
integer model.  The bounded-retry mechanics of the concrete
try-and-increment loop are modelled separately below. -/
def hash_to_group (should_use_composite should_use_cip22 use_pop : Bool)
    (message extra : Bytes) : Int :=
  Int.ofNat (Nat.pair (domain_tag should_use_composite should_use_cip22 use_pop)
    (Nat.pair (encodeList message) (encodeList extra)) + 1)

/-- Modelled from the spec: a public key is the private scalar's image
under the generator (data model, section 3); generator 1 in the integer
model. -/
def private_key_to_public_key (private_key : Int) : Int :=
  private_key

/-- Modelled from the spec: sign_message applies the private scalar to
the hashed point, selecting the hash mode by the composite/CIP22 flags
(section 4.2). -/
def sign_message (private_key : Int) (message extra : Bytes)
    (should_use_composite should_use_cip22 : Bool) : Except BlsError Int :=
  .ok (private_key * hash_to_group should_use_composite should_use_cip22 false message extra)

/-- Modelled from the spec: sign_pop signs the proof-of-possession-domain
hash of the identifying message, with no extra data and no composite
option (section 4.2). -/
def sign_pop (private_key : Int) (message : Bytes) : Except BlsError Int :=
  .ok (private_key * hash_to_group false false true message [])

/-- Modelled from the spec: verify_signature recomputes the hash point
with the requested mode flags and checks the pairing equation relating
signature, generator, hashed point and public key; in the integer model
the pairing equation degenerates to sig = pk * hash.  A non-matching
input is a false result written to the out-parameter, never an error
(sections 4.4, 6, 7). -/
def verify_signature (public_key : Int) (message extra : Bytes) (sig : Int)
    (should_use_composite should_use_cip22 : Bool) : Except BlsError Bool :=
  .ok (decide (sig = public_key * hash_to_group should_use_composite should_use_cip22 false message extra))

/-- Modelled from the spec: verify_pop is the same check restricted to
the proof-of-possession domain, single key, no extra data (section 4.4). -/
def verify_pop (public_key : Int) (message : Bytes) (sig : Int) : Except BlsError Bool :=
  .ok (decide (sig = public_key * hash_to_group false false true message []))

/-- One verification request of the best-effort batch operation: the
data, the extra data, the aggregate public key and the signature
(the MessageFFI record of the interface). -/
structure MessageFFI where
  data : Bytes
  extra : Bytes
  public_key : Int
  sig : Int
deriving DecidableEq, Repr

/-- One epoch batch of the strict batch operation: shared data and extra
data plus the parallel lists of public keys and signatures
(the BatchMessageFFI record of the interface). -/
structure BatchMessageFFI where
  data : Bytes
  extra : Bytes
  public_keys : List Int
  signatures : List Int
deriving DecidableEq, Repr

/-- Whether one MessageFFI tuple passes individual verification. -/
def verify_message (should_use_composite should_use_cip22 : Bool) (m : MessageFFI) : Bool :=
  decide (m.sig = m.public_key * hash_to_group should_use_composite should_use_cip22 false m.data m.extra)

/-- Modelled from the spec: batch_verify_signature verifies N tuples
jointly; the randomized linear combination is, with overwhelming
probability, equivalent to all N individual checks holding, which is the
idealized semantics modelled here (section 4.4).  One aggregate boolean
is reported through the out-parameter; the operation itself succeeds. -/
def batch_verify_signature (messages : List MessageFFI)
    (should_use_composite should_use_cip22 : Bool) : Except BlsError Bool :=
  .ok (messages.all (verify_message should_use_composite should_use_cip22))

/-- Modelled from the spec: aggregate_public_keys sums a nonempty list of
group elements and fails with AggregationEmptyInput on an empty list
(section 4.3). -/
def aggregate_public_keys (in_public_keys : List Int) : Except BlsError Int :=
  match in_public_keys with
  | [] => .error .AggregationEmptyInput
  | l => .ok l.sum

/-- Modelled from the spec: aggregate_signatures sums a nonempty list of
group elements and fails with AggregationEmptyInput on an empty list
(section 4.3). -/
def aggregate_signatures (in_signatures : List Int) : Except BlsError Int :=
  match in_signatures with
  | [] => .error .AggregationEmptyInput
  | l => .ok l.sum

/-- Modelled from the spec: aggregate_public_keys_subtract computes
aggregate - sum(subset) (section 4.3). -/
def aggregate_public_keys_subtract (in_aggregated_public_key : Int)
    (in_public_keys : List Int) : Except BlsError Int :=
  .ok (in_aggregated_public_key - in_public_keys.sum)

/-- Modelled from the spec: a batch record is well formed when its key
and signature lists have equal, nonzero length (data model, section 3). -/
def batch_well_formed (b : BatchMessageFFI) : Prop :=
  b.public_keys.length = b.signatures.length ∧ b.public_keys ≠ []

instance (b : BatchMessageFFI) : Decidable (batch_well_formed b) := by
  unfold batch_well_formed
  infer_instance

/-- Whether one batch passes verification: its keys and signatures are
aggregated and the aggregate is checked against the shared data/extra
pair (section 4.4). -/
def verify_batch (should_use_composite should_use_cip22 : Bool) (b : BatchMessageFFI) : Bool :=
  decide (b.signatures.sum =
    b.public_keys.sum * hash_to_group should_use_composite should_use_cip22 false b.data b.extra)

/-- Modelled from the spec: batch_verify_strict processes a list of
batches, each combined internally via aggregation then checked against
its shared data/extra; it produces one boolean per batch plus an overall
result, the conjunction being accumulated as the batches are processed
(section 4.4).  A malformed batch record makes the operation itself
fail. -/
def batch_verify_strict (should_use_composite should_use_cip22 : Bool) :
    List BatchMessageFFI → Except BlsError (List Bool × Bool)
  | [] => .ok ([], true)
  | b :: t =>
    if batch_well_formed b then
      match batch_verify_strict should_use_composite should_use_cip22 t with
      | .ok (results, overall) =>
        .ok (verify_batch should_use_composite should_use_cip22 b :: results,
             verify_batch should_use_composite should_use_cip22 b && overall)
      | .error e => .error e
    else .error .InputMalformed

/-- Little-endian fixed-width byte encoding of a natural number (the
spec's fixed field widths for the epoch encoding). -/
def toLEBytes : Nat → Nat → List Nat
  | 0, _ => []
  | w + 1, n => n % 256 :: toLEBytes w (n / 256)

/-- Base-256 little-endian digits of a natural number, fuel-based so that
it is structurally recursive. -/
def natToBytesAux : Nat → Nat → List Nat
  | 0, _ => []
  | fuel + 1, n => if n = 0 then [] else n % 256 :: natToBytesAux fuel (n / 256)

/-- Base-256 little-endian digits of a natural number. -/
def natToBytes (n : Nat) : List Nat :=
  natToBytesAux n n

/-- Decode base-256 little-endian digits back to a natural number. -/
def bytesToNat : List Nat → Nat
  | [] => 0
  | b :: t => b % 256 + 256 * bytesToNat t

/-- Modelled from the spec: canonical injective byte encoding of a group
scalar or group element of the integer model - a sign byte followed by
the base-256 digits of the magnitude.  The spec leaves the concrete bit
layout open (section 9) and fixes only the round-trip property. -/
def intToBytes (x : Int) : List Nat :=
  (if x < 0 then 1 else 0) :: natToBytes x.natAbs

/-- Modelled from the spec: decoding of `intToBytes`; a missing or
unknown sign byte is a malformed input. -/
def intFromBytes : List Nat → Except BlsError Int
  | [] => .error .InputMalformed
  | s :: rest =>
    if s = 0 then .ok (bytesToNat rest : Int)
    else if s = 1 then .ok (-(bytesToNat rest : Int))
    else .error .InputMalformed

/-- Modelled from the spec: serialize_private_key (section 6). -/
def serialize_private_key (in_private_key : Int) : List Nat :=
  intToBytes in_private_key

/-- Modelled from the spec: deserialize_private_key (section 6). -/
def deserialize_private_key (in_private_key_bytes : List Nat) : Except BlsError Int :=
  intFromBytes in_private_key_bytes

/-- Modelled from the spec: serialize_public_key, the compressed form,
distinguished by a leading form tag (section 6). -/
def serialize_public_key (in_public_key : Int) : List Nat :=
  2 :: intToBytes in_public_key

/-- Modelled from the spec: serialize_public_key_uncompressed, the
uncompressed form, distinguished by a leading form tag (section 6). -/
def serialize_public_key_uncompressed (in_public_key : Int) : List Nat :=
  3 :: intToBytes in_public_key

/-- Modelled from the spec: deserialize_public_key accepts both the
compressed and the uncompressed form (section 8 round-trip property). -/
def deserialize_public_key (in_public_key_bytes : List Nat) : Except BlsError Int :=
  match in_public_key_bytes with
  | [] => .error .InputMalformed
  | t :: rest =>
    if t = 2 ∨ t = 3 then intFromBytes rest
    else .error .InputMalformed

/-- Modelled from the spec: serialize_signature (section 6). -/
def serialize_signature (in_signature : Int) : List Nat :=
  intToBytes in_signature

/-- Modelled from the spec: deserialize_signature (section 6). -/
def deserialize_signature (in_signature_bytes : List Nat) : Except BlsError Int :=
  intFromBytes in_signature_bytes

/-- Concatenated compressed serializations of a key list, in order. -/
def keys_bytes : List Int → List Nat
  | [] => []
  | k :: t => serialize_public_key k ++ keys_bytes t

/-- Modelled from the spec: encode_epoch_block_to_bytes emits the 2-byte
epoch index, the 4-byte maximum non-signers, then each added public key
in compressed form, order preserved verbatim (sections 4.5 and 8). -/
def encode_epoch_block_to_bytes (in_epoch_index in_maximum_non_signers : Nat)
    (in_added_public_keys : List Int) : List Nat :=
  toLEBytes 2 in_epoch_index ++ toLEBytes 4 in_maximum_non_signers ++
    keys_bytes in_added_public_keys

/-- Modelled from the spec: the first-stage digest fed into
try-and-increment, injective in the message for each domain. -/
def hash_first_step (use_pop : Bool) (message : Bytes) : Nat :=
  Nat.pair (domain_tag false false use_pop) (encodeList message)

/-- Modelled from the spec: the bounded try-and-increment loop of
section 4.1 - hash the input together with an increasing counter until
the digest decodes to a valid point; the point-validity test performed by
the excluded curve library is abstracted as the predicate argument.
Returns the found point and the attempt counter at which it was found, or
HashToCurveExhausted when the fuel runs out. -/
def try_and_increment (valid : Nat → Bool) (base : Nat) :
    Nat → Nat → Except BlsError (Nat × Nat)
  | 0, _ => .error .HashToCurveExhausted
  | fuel + 1, attempt =>
    if valid (base + attempt) then .ok (base + attempt, attempt)
    else try_and_increment valid base fuel (attempt + 1)

/-- Modelled from the spec: hash_direct_with_attempt runs bounded
try-and-increment from the first-stage digest, with the retry budget of
255 tries forced by the single-byte attempt counter (section 4.1). -/
def hash_direct_with_attempt (valid : Nat → Bool) (message : Bytes) (use_pop : Bool) :
    Except BlsError (Nat × Nat) :=
  try_and_increment valid (hash_first_step use_pop message) 255 0

/-- Modelled from the spec: hash_direct is the attempt-discarding form of
hash_direct_with_attempt (section 4.1). -/
def hash_direct (valid : Nat → Bool) (message : Bytes) (use_pop : Bool) :
    Except BlsError Nat :=
  (hash_direct_with_attempt valid message use_pop).map Prod.fst

/-- Lookup of previously deserialized bytes in the cache of the cached
deserialization variant. -/
def cacheFind : List (List Nat × Int) → List Nat → Option Int
  | [], _ => none
  | (k, v) :: t, bs => if k = bs then some v else cacheFind t bs

/-- A cache is well formed when every entry records a successful
deserialization of its bytes. -/
def cacheWF (c : List (List Nat × Int)) : Prop :=
  ∀ p ∈ c, deserialize_public_key p.1 = .ok p.2

/-- Modelled from the spec: deserialize_public_key_cached is an
optimization of deserialize_public_key - a cache of previously
deserialized keys keyed by the input bytes, falling back to plain
deserialization on a miss and recording the result.  Returns the result
together with the updated cache. -/
def deserialize_public_key_cached (cache : List (List Nat × Int))
    (in_public_key_bytes : List Nat) : Except BlsError Int × List (List Nat × Int) :=
  match cacheFind cache in_public_key_bytes with
  | some pk => (.ok pk, cache)
  | none =>
    match deserialize_public_key in_public_key_bytes with
    | .ok pk => (.ok pk, (in_public_key_bytes, pk) :: cache)
    | .error e => (.error e, cache)

/-! ## Helper lemmas -/

theorem encodeList_injective : ∀ {l1 l2 : List Nat}, encodeList l1 = encodeList l2 → l1 = l2 := by
  intro l1
  induction l1 with
  | nil =>
    intro l2 h
    cases l2 with
    | nil => rfl
    | cons b t => simp [encodeList] at h
  | cons a t ih =>
    intro l2 h
    cases l2 with
    | nil => simp [encodeList] at h
    | cons b t2 =>
      simp only [encodeList] at h
      obtain ⟨h1, h2⟩ := Nat.pair_eq_pair.mp (Nat.add_right_cancel h)
      rw [h1, ih h2]

theorem hash_to_group_pos (c k p : Bool) (m e : Bytes) : 0 < hash_to_group c k p m e := by
  unfold hash_to_group
  exact Int.ofNat_pos.mpr (Nat.succ_pos _)

theorem hash_to_group_injective {c k p : Bool} {m e m2 e2 : Bytes}
    (h : hash_to_group c k p m e = hash_to_group c k p m2 e2) : m = m2 ∧ e = e2 := by
  unfold hash_to_group at h
  have h2 := Nat.add_right_cancel (Int.ofNat.inj h)
  obtain ⟨-, h3⟩ := Nat.pair_eq_pair.mp h2
  obtain ⟨h4, h5⟩ := Nat.pair_eq_pair.mp h3
  exact ⟨encodeList_injective h4, encodeList_injective h5⟩

theorem bytesToNat_natToBytesAux : ∀ fuel n, n ≤ fuel → bytesToNat (natToBytesAux fuel n) = n := by
  intro fuel
  induction fuel with
  | zero =>
    intro n h
    have : n = 0 := by omega
    subst this
    rfl
  | succ f ih =>
    intro n h
    by_cases hn : n = 0
    · subst hn; rfl
    · simp only [natToBytesAux, if_neg hn, bytesToNat]
      rw [ih (n / 256) (by omega)]
      omega

theorem bytesToNat_natToBytes (n : Nat) : bytesToNat (natToBytes n) = n := by
  unfold natToBytes
  exact bytesToNat_natToBytesAux n n le_rfl

theorem intFromBytes_intToBytes (x : Int) : intFromBytes (intToBytes x) = .ok x := by
  by_cases hx : x < 0
  · have h2 : ((x.natAbs : Int)) = -x := Int.ofNat_natAbs_of_nonpos hx.le
    simp [intToBytes, if_pos hx, intFromBytes, bytesToNat_natToBytes, h2]
  · have h2 : ((x.natAbs : Int)) = x := Int.natAbs_of_nonneg (not_lt.mp hx)
    simp [intToBytes, if_neg hx, intFromBytes, bytesToNat_natToBytes, h2]

theorem toLEBytes_length (w n : Nat) : (toLEBytes w n).length = w := by
  induction w generalizing n with
  | zero => rfl
  | succ v ih => simp [toLEBytes, ih]

theorem keys_bytes_eq (ks : List Int) : keys_bytes ks = (ks.map serialize_public_key).flatten := by
  induction ks with
  | nil => rfl
  | cons h t ih => simp [keys_bytes, ih]

theorem try_and_increment_ok (valid : Nat → Bool) (base : Nat) :
    ∀ fuel attempt pt a, try_and_increment valid base fuel attempt = .ok (pt, a) →
      valid pt = true ∧ pt = base + a ∧ attempt ≤ a ∧ a < attempt + fuel := by
  intro fuel
  induction fuel with
  | zero =>
    intro attempt pt a h
    simp [try_and_increment] at h
  | succ f ih =>
    intro attempt pt a h
    simp only [try_and_increment] at h
    by_cases hv : valid (base + attempt) = true
    · rw [if_pos hv] at h
      simp only [Except.ok.injEq, Prod.mk.injEq] at h
      obtain ⟨h1, h2⟩ := h
      subst h1
      subst h2
      exact ⟨hv, rfl, le_refl _, by omega⟩
    · rw [if_neg hv] at h
      obtain ⟨h1, h2, h3, h4⟩ := ih (attempt + 1) pt a h
      exact ⟨h1, h2, by omega, by omega⟩

theorem try_and_increment_error (valid : Nat → Bool) (base : Nat) :
    ∀ fuel attempt e, try_and_increment valid base fuel attempt = .error e →
      e = .HashToCurveExhausted ∧ ∀ i, i < fuel → valid (base + (attempt + i)) = false := by
  intro fuel
  induction fuel with
  | zero =>
    intro attempt e h
    simp only [try_and_increment] at h
    exact ⟨(Except.error.inj h).symm, fun i hi => absurd hi (by omega)⟩
  | succ f ih =>
    intro attempt e h
    simp only [try_and_increment] at h
    by_cases hv : valid (base + attempt) = true
    · rw [if_pos hv] at h
      exact absurd h (by simp)
    · rw [if_neg hv] at h
      obtain ⟨he, hall⟩ := ih (attempt + 1) e h
      refine ⟨he, ?_⟩
      intro i hi
      cases i with
      | zero =>
        have : valid (base + attempt) = false := by
          revert hv
          cases valid (base + attempt) <;> simp
        simpa using this
      | succ j =>
        have hj := hall j (by omega)
        rw [show attempt + (j + 1) = attempt + 1 + j from by omega]
        exact hj

theorem batch_verify_strict_spec (c k : Bool) :
    ∀ bs rs o, batch_verify_strict c k bs = .ok (rs, o) →
      rs = bs.map (verify_batch c k) ∧ o = rs.all id := by
  intro bs
  induction bs with
  | nil =>
    intro rs o h
    simp only [batch_verify_strict, Except.ok.injEq, Prod.mk.injEq] at h
    obtain ⟨h1, h2⟩ := h
    subst h1
    subst h2
    simp
  | cons b t ih =>
    intro rs o h
    simp only [batch_verify_strict] at h
    by_cases hw : batch_well_formed b
    · rw [if_pos hw] at h
      cases ht : batch_verify_strict c k t with
      | ok p =>
        obtain ⟨rs2, o2⟩ := p
        rw [ht] at h
        simp only [Except.ok.injEq, Prod.mk.injEq] at h
        obtain ⟨h1, h2⟩ := h
        subst h1
        subst h2
        obtain ⟨g1, g2⟩ := ih rs2 o2 ht
        subst g1
        subst g2
        simp
      | error e =>
        rw [ht] at h
        exact absurd h (by simp)
    · rw [if_neg hw] at h
      exact absurd h (by simp)

theorem batch_verify_strict_wf_ok (c k : Bool) :
    ∀ bs, (∀ b ∈ bs, batch_well_formed b) →
      ∃ rs o, batch_verify_strict c k bs = .ok (rs, o) := by
  intro bs
  induction bs with
  | nil => intro _; exact ⟨[], true, rfl⟩
  | cons b t ih =>
    intro h
    obtain ⟨rs, o, ht⟩ := ih (fun x hx => h x (List.mem_cons_of_mem b hx))
    have hw : batch_well_formed b := h b (List.mem_cons_self b t)
    refine ⟨verify_batch c k b :: rs, verify_batch c k b && o, ?_⟩
    simp only [batch_verify_strict, if_pos hw, ht]

theorem cacheFind_some : ∀ {c : List (List Nat × Int)} {bs : List Nat} {v : Int},
    cacheFind c bs = some v → (bs, v) ∈ c := by
  intro c
  induction c with
  | nil => intro bs v h; simp [cacheFind] at h
  | cons p t ih =>
    intro bs v h
    obtain ⟨key, w⟩ := p
    simp only [cacheFind] at h
    by_cases hk : key = bs
    · rw [if_pos hk] at h
      subst hk
      rw [Option.some.inj h]
      exact List.mem_cons_self _ _
    · rw [if_neg hk] at h
      exact List.mem_cons_of_mem _ (ih h)

/-! ## Claim theorems -/

/-- C1 (amended: the private key must be nonzero; the zero scalar is
excluded because its signature verifies under every message, as the
counterexample shows): for every keypair with nonzero private scalar,
message and extra data, the signature produced by sign_message with some
flag pair verifies under verify_signature with the same flags, and
changing the message, the extra data or the signature, or substituting a
public key not matching the private key, makes the verification outcome
false. -/
theorem c1_sign_verify_roundtrip_and_tamper (sk : Int) (m extra : Bytes)
    (c k : Bool) (hsk : sk ≠ 0) (sig : Int)
    (hsig : sign_message sk m extra c k = .ok sig) :
    verify_signature (private_key_to_public_key sk) m extra sig c k = .ok true ∧
    (∀ m2, m2 ≠ m →
      verify_signature (private_key_to_public_key sk) m2 extra sig c k = .ok false) ∧
    (∀ e2, e2 ≠ extra →
      verify_signature (private_key_to_public_key sk) m e2 sig c k = .ok false) ∧
    (∀ sig2, sig2 ≠ sig →
      verify_signature (private_key_to_public_key sk) m extra sig2 c k = .ok false) ∧
    (∀ pk2, pk2 ≠ private_key_to_public_key sk →
      verify_signature pk2 m extra sig c k = .ok false) := by
  have hsig2 : sig = sk * hash_to_group c k false m extra := by
    simpa [sign_message] using hsig.symm
  subst hsig2
  refine ⟨?_, ?_, ?_, ?_, ?_⟩
  · simp [verify_signature, private_key_to_public_key]
  · intro m2 hm
    have hne : sk * hash_to_group c k false m extra ≠ sk * hash_to_group c k false m2 extra := by
      intro heq
      exact hm ((hash_to_group_injective (mul_left_cancel₀ hsk heq)).1).symm
    simp [verify_signature, private_key_to_public_key, hne]
  · intro e2 he
    have hne : sk * hash_to_group c k false m extra ≠ sk * hash_to_group c k false m e2 := by
      intro heq
      exact he ((hash_to_group_injective (mul_left_cancel₀ hsk heq)).2).symm
    simp [verify_signature, private_key_to_public_key, hne]
  · intro sig2 hs
    simp [verify_signature, private_key_to_public_key, hs]
  · intro pk2 hp
    have hne : sk * hash_to_group c k false m extra ≠ pk2 * hash_to_group c k false m extra := by
      intro heq
      exact hp (mul_right_cancel₀ (hash_to_group_pos c k false m extra).ne' heq).symm
    simp [verify_signature, private_key_to_public_key, hne]

/-- C1 counterexample: for the zero private key, whose public key is the
group identity, the signature produced for the empty message also
verifies for the distinct message consisting of one zero byte, so
changing a byte of the message does not make the outcome false. -/
theorem c1_counterexample :
    sign_message 0 [] [] false false = .ok 0 ∧
    ([0] : Bytes) ≠ ([] : Bytes) ∧
    verify_signature (private_key_to_public_key 0) [0] [] 0 false false = .ok true := by
  refine ⟨?_, by simp, ?_⟩
  · simp [sign_message]
  · simp [verify_signature, private_key_to_public_key]

/-- Witness for the amended C1 at the concrete keypair with private
scalar 1 and the empty message. -/
theorem c1_witness :
    ((1 : Int) ≠ 0 ∧ sign_message 1 [] [] false false = .ok 1 ∧ ([0] : Bytes) ≠ []) ∧
    verify_signature (private_key_to_public_key 1) [] [] 1 false false = .ok true ∧
    verify_signature (private_key_to_public_key 1) [0] [] 1 false false = .ok false := by
  have h := c1_sign_verify_roundtrip_and_tamper 1 [] [] false false (by decide) 1 (by decide)
  exact ⟨⟨by decide, by decide, by decide⟩, h.1, h.2.1 [0] (by decide)⟩

/-- C2: a negative verification outcome is reported only through the
dedicated out-parameter: verify_signature and verify_pop always succeed,
writing false for a non-matching signature, batch_verify_signature always
succeeds, and batch_verify_strict succeeds on every list of well-formed
batches. -/
theorem c2_negative_verification_not_an_error :
    (∀ (pk : Int) (m extra : Bytes) (sig : Int) (c k : Bool),
      ∃ b, verify_signature pk m extra sig c k = .ok b) ∧
    (∀ (pk : Int) (m extra : Bytes) (sig : Int) (c k : Bool),
      sig ≠ pk * hash_to_group c k false m extra →
      verify_signature pk m extra sig c k = .ok false) ∧
    (∀ (pk : Int) (m : Bytes) (sig : Int), ∃ b, verify_pop pk m sig = .ok b) ∧
    (∀ (pk : Int) (m : Bytes) (sig : Int),
      sig ≠ pk * hash_to_group false false true m [] → verify_pop pk m sig = .ok false) ∧
    (∀ (msgs : List MessageFFI) (c k : Bool), ∃ b, batch_verify_signature msgs c k = .ok b) ∧
    (∀ (c k : Bool) (bs : List BatchMessageFFI), (∀ b ∈ bs, batch_well_formed b) →
      ∃ rs o, batch_verify_strict c k bs = .ok (rs, o)) := by
  refine ⟨fun pk m extra sig c k => ⟨_, rfl⟩, ?_, fun pk m sig => ⟨_, rfl⟩, ?_,
    fun msgs c k => ⟨_, rfl⟩, fun c k bs h => batch_verify_strict_wf_ok c k bs h⟩
  · intro pk m extra sig c k hne
    simp [verify_signature, hne]
  · intro pk m sig hne
    simp [verify_pop, hne]

/-- Witness for C2 at a concrete non-matching signature. -/
theorem c2_witness :
    ((5 : Int) ≠ 1 * hash_to_group false false false [] []) ∧
    verify_signature 1 [] [] 5 false false = .ok false := by
  refine ⟨by decide, ?_⟩
  exact c2_negative_verification_not_an_error.2.1 1 [] [] 5 false false (by decide)

/-- C3: batch_verify_strict writes one boolean per batch and its overall
result is the logical conjunction of the per-batch results, true exactly
when every entry is true. -/
theorem c3_batch_verify_strict_results (c k : Bool) (bs : List BatchMessageFFI)
    (rs : List Bool) (o : Bool) (h : batch_verify_strict c k bs = .ok (rs, o)) :
    rs.length = bs.length ∧ o = rs.all id ∧ (o = true ↔ ∀ r ∈ rs, r = true) := by
  obtain ⟨h1, h2⟩ := batch_verify_strict_spec c k bs rs o h
  subst h2
  refine ⟨by simp [h1], rfl, ?_⟩
  simp [List.all_eq_true]

/-- Witness for C3 at a concrete single-batch input whose signature does
not match. -/
theorem c3_witness :
    batch_verify_strict false false [⟨[], [], [1], [0]⟩] = .ok ([false], false) ∧
    ([false] : List Bool).length = [(⟨[], [], [1], [0]⟩ : BatchMessageFFI)].length ∧
    false = ([false] : List Bool).all id ∧
    (false = true ↔ ∀ r ∈ ([false] : List Bool), r = true) := by
  have h : batch_verify_strict false false [⟨[], [], [1], [0]⟩] = .ok ([false], false) := by
    decide
  exact ⟨h, c3_batch_verify_strict_results false false _ _ _ h⟩

/-- C4: the epoch encoding at epoch index 5 with maximum non-signers 2
and two added keys has length 2 + 4 + the two serialized key lengths, its
prefix is the 2-byte encoding of 5 followed by the 4-byte encoding of 2,
followed by the two serialized keys in exactly the given order; in
general the added-key order is preserved verbatim for every key list. -/
theorem c4_encode_epoch_block_canonical (pkA pkB : Int) :
    (encode_epoch_block_to_bytes 5 2 [pkA, pkB]).length =
      2 + 4 + (serialize_public_key pkA).length + (serialize_public_key pkB).length ∧
    encode_epoch_block_to_bytes 5 2 [pkA, pkB] =
      toLEBytes 2 5 ++ toLEBytes 4 2 ++ (serialize_public_key pkA ++ serialize_public_key pkB) ∧
    toLEBytes 2 5 = [5, 0] ∧
    toLEBytes 4 2 = [2, 0, 0, 0] ∧
    (∀ (e mns : Nat) (ks : List Int),
      encode_epoch_block_to_bytes e mns ks =
        toLEBytes 2 e ++ toLEBytes 4 mns ++ (ks.map serialize_public_key).flatten) := by
  refine ⟨?_, ?_, rfl, rfl, ?_⟩
  · simp only [encode_epoch_block_to_bytes, keys_bytes, List.append_nil, List.length_append,
      toLEBytes_length]
    omega
  · simp [encode_epoch_block_to_bytes, keys_bytes]
  · intro e mns ks
    simp [encode_epoch_block_to_bytes, keys_bytes_eq]

/-- C5: hash_direct and hash_direct_with_attempt either find a valid
point within the bounded try-and-increment budget, reporting an attempt
count of at most 255, or fail with HashToCurveExhausted, in which case no
counter below the 255-try budget yields a valid point. -/
theorem c5_hash_to_curve_bounded (valid : Nat → Bool) (m : Bytes) (use_pop : Bool) :
    (∀ pt a, hash_direct_with_attempt valid m use_pop = .ok (pt, a) →
      valid pt = true ∧ a ≤ 255) ∧
    (∀ e, hash_direct_with_attempt valid m use_pop = .error e →
      e = .HashToCurveExhausted ∧
        ∀ i, i < 255 → valid (hash_first_step use_pop m + i) = false) ∧
    (∀ e, hash_direct valid m use_pop = .error e → e = .HashToCurveExhausted) := by
  refine ⟨?_, ?_, ?_⟩
  · intro pt a h
    unfold hash_direct_with_attempt at h
    obtain ⟨h1, h2, h3, h4⟩ := try_and_increment_ok valid (hash_first_step use_pop m) 255 0 pt a h
    exact ⟨h1, by omega⟩
  · intro e h
    unfold hash_direct_with_attempt at h
    obtain ⟨he, hall⟩ := try_and_increment_error valid (hash_first_step use_pop m) 255 0 e h
    refine ⟨he, fun i hi => ?_⟩
    simpa using hall i hi
  · intro e h
    unfold hash_direct at h
    cases hx : hash_direct_with_attempt valid m use_pop with
    | ok p =>
      rw [hx] at h
      simp [Except.map] at h
    | error e2 =>
      rw [hx] at h
      simp only [Except.map] at h
      unfold hash_direct_with_attempt at hx
      have he2 := (try_and_increment_error valid (hash_first_step use_pop m) 255 0 e2 hx).1
      rw [← Except.error.inj h]
      exact he2

set_option maxRecDepth 8000 in
/-- Witness for C5: a concrete always-valid predicate succeeds at attempt
zero and a concrete never-valid predicate exhausts the budget. -/
theorem c5_witness :
    hash_direct_with_attempt (fun _ => true) [] false = .ok (0, 0) ∧
    ((fun _ => true : Nat → Bool) 0 = true ∧ (0 : Nat) ≤ 255) ∧
    hash_direct_with_attempt (fun _ => false) [] false = .error .HashToCurveExhausted ∧
    BlsError.HashToCurveExhausted = .HashToCurveExhausted ∧
    (fun _ => false : Nat → Bool) (hash_first_step false [] + 0) = false := by
  have h1 : hash_direct_with_attempt (fun _ => true) [] false = .ok (0, 0) := by decide
  have h2 : hash_direct_with_attempt (fun _ => false) [] false =
      .error .HashToCurveExhausted := by decide
  refine ⟨h1, (c5_hash_to_curve_bounded (fun _ => true) [] false).1 0 0 h1, h2, ?_, ?_⟩
  · exact ((c5_hash_to_curve_bounded (fun _ => false) [] false).2.1 _ h2).1
  · exact ((c5_hash_to_curve_bounded (fun _ => false) [] false).2.1 _ h2).2 0 (by decide)

/-- C6: aggregation of an empty list fails with AggregationEmptyInput,
and aggregation of any nonempty list succeeds with the group sum, for
public keys and signatures alike. -/
theorem c6_aggregate_empty_input :
    aggregate_public_keys [] = .error .AggregationEmptyInput ∧
    aggregate_signatures [] = .error .AggregationEmptyInput ∧
    (∀ l : List Int, l ≠ [] → aggregate_public_keys l = .ok l.sum) ∧
    (∀ l : List Int, l ≠ [] → aggregate_signatures l = .ok l.sum) := by
  refine ⟨rfl, rfl, ?_, ?_⟩
  · intro l hl
    cases l with
    | nil => exact absurd rfl hl
    | cons a t => rfl
  · intro l hl
    cases l with
    | nil => exact absurd rfl hl
    | cons a t => rfl

/-- Witness for C6 at a concrete nonempty list. -/
theorem c6_witness :
    ([1, 2] : List Int) ≠ [] ∧
    aggregate_public_keys [1, 2] = .ok ([1, 2] : List Int).sum ∧
    aggregate_signatures [1, 2] = .ok ([1, 2] : List Int).sum := by
  refine ⟨by decide, ?_, ?_⟩
  · exact c6_aggregate_empty_input.2.2.1 [1, 2] (by decide)
  · exact c6_aggregate_empty_input.2.2.2 [1, 2] (by decide)

/-- C7: aggregation of a nonempty list of public keys or signatures is
invariant under permutation of the list. -/
theorem c7_aggregate_perm_invariant (l1 l2 : List Int) (hp : l1.Perm l2) (hne : l1 ≠ []) :
    aggregate_public_keys l1 = aggregate_public_keys l2 ∧
    aggregate_signatures l1 = aggregate_signatures l2 := by
  have hne2 : l2 ≠ [] := by
    intro h
    subst h
    exact hne hp.eq_nil
  cases l1 with
  | nil => exact absurd rfl hne
  | cons a t =>
    cases l2 with
    | nil => exact absurd rfl hne2
    | cons b t2 =>
      have hs : (a :: t).sum = (b :: t2).sum := hp.sum_eq
      constructor <;> simp [aggregate_public_keys, aggregate_signatures, hs]

/-- Witness for C7 at a concrete transposition. -/
theorem c7_witness :
    aggregate_public_keys [1, 2] = aggregate_public_keys [2, 1] ∧
    aggregate_signatures [1, 2] = aggregate_signatures [2, 1] :=
  c7_aggregate_perm_invariant [1, 2] [2, 1] (List.Perm.swap 2 1 []) (by decide)

/-- C8: subtracting the aggregate of a sub-list of the aggregated keys
yields the aggregate of the remaining keys; in particular subtracting
the middle key of a three-key aggregate leaves the aggregate of the two
outer keys. -/
theorem c8_aggregate_subtract_subset (k1 k2 k3 : Int) :
    (∀ a : Int, aggregate_public_keys [k1, k2, k3] = .ok a →
      aggregate_public_keys_subtract a [k2] = aggregate_public_keys [k1, k3]) ∧
    (∀ (l s r : List Int) (a : Int), l.Perm (s ++ r) → r ≠ [] →
      aggregate_public_keys l = .ok a →
      aggregate_public_keys_subtract a s = aggregate_public_keys r) := by
  have general : ∀ (l s r : List Int) (a : Int), l.Perm (s ++ r) → r ≠ [] →
      aggregate_public_keys l = .ok a →
      aggregate_public_keys_subtract a s = aggregate_public_keys r := by
    intro l s r a hp hr hl
    have hlne : l ≠ [] := by
      intro h
      subst h
      obtain ⟨-, hr2⟩ := List.append_eq_nil.mp hp.symm.eq_nil
      exact hr hr2
    have ha : a = l.sum := by
      cases l with
      | nil => exact absurd rfl hlne
      | cons x t =>
        simp only [aggregate_public_keys, Except.ok.injEq] at hl
        exact hl.symm
    subst ha
    have hsum : l.sum = s.sum + r.sum := by
      rw [hp.sum_eq]
      exact List.sum_append
    cases r with
    | nil => exact absurd rfl hr
    | cons x t =>
      simp only [aggregate_public_keys_subtract, aggregate_public_keys, Except.ok.injEq]
      rw [hsum]
      ring
  refine ⟨?_, general⟩
  intro a ha
  have hp : ([k1, k2, k3] : List Int).Perm ([k2] ++ [k1, k3]) := List.Perm.swap k2 k1 [k3]
  exact general [k1, k2, k3] [k2] [k1, k3] a hp (by simp) ha

/-- Witness for C8 at concrete keys 1, 2, 3. -/
theorem c8_witness :
    aggregate_public_keys [1, 2, 3] = .ok 6 ∧
    aggregate_public_keys_subtract 6 [2] = aggregate_public_keys [1, 3] := by
  have h : aggregate_public_keys [1, 2, 3] = .ok 6 := by decide
  exact ⟨h, (c8_aggregate_subtract_subset 1 2 3).1 6 h⟩

/-- C9: deserialization inverts serialization for private keys, public
keys in both the compressed and the uncompressed form, and signatures. -/
theorem c9_serialize_round_trip (x : Int) :
    deserialize_private_key (serialize_private_key x) = .ok x ∧
    deserialize_public_key (serialize_public_key x) = .ok x ∧
    deserialize_public_key (serialize_public_key_uncompressed x) = .ok x ∧
    deserialize_signature (serialize_signature x) = .ok x := by
  refine ⟨intFromBytes_intToBytes x, ?_, ?_, intFromBytes_intToBytes x⟩
  · show deserialize_public_key (2 :: intToBytes x) = .ok x
    simp [deserialize_public_key, intFromBytes_intToBytes]
  · show deserialize_public_key (3 :: intToBytes x) = .ok x
    simp [deserialize_public_key, intFromBytes_intToBytes]

/-- C10: on any well-formed cache, the cached deserialization variant
returns exactly what plain deserialize_public_key returns (success and
value alike) and leaves the cache well formed, so the cache is an
optimization, not a semantic change. -/
theorem c10_cached_deserialize_equivalent (cache : List (List Nat × Int)) (bs : List Nat)
    (hc : cacheWF cache) :
    (deserialize_public_key_cached cache bs).1 = deserialize_public_key bs ∧
    cacheWF (deserialize_public_key_cached cache bs).2 := by
  unfold deserialize_public_key_cached
  cases hf : cacheFind cache bs with
  | some pk =>
    simp only [hf]
    exact ⟨(hc _ (cacheFind_some hf)).symm, hc⟩
  | none =>
    simp only [hf]
    cases hd : deserialize_public_key bs with
    | ok pk =>
      simp only [hd]
      refine ⟨trivial, ?_⟩
      intro p hp
      rcases List.mem_cons.mp hp with h | h
      · subst h
        exact hd
      · exact hc p h
    | error e =>
      simp only [hd]
      exact ⟨trivial, hc⟩

/-- Witness for C10 at the empty cache and a concrete compressed key. -/
theorem c10_witness :
    cacheWF [] ∧
    (deserialize_public_key_cached [] [2, 0]).1 = deserialize_public_key [2, 0] ∧
    cacheWF (deserialize_public_key_cached [] [2, 0]).2 := by
  have hc : cacheWF ([] : List (List Nat × Int)) := by
    intro p hp
    exact absurd hp (List.not_mem_nil p)
  exact ⟨hc, c10_cached_deserialize_equivalent [] [2, 0] hc⟩
